import Mathlib

/-!
Verification of the pitch-to-tablature core of `main.py` (bass_taber).

The Python source is shallowly embedded: floats that feed the discrete
decisions are modelled as exact rationals, NumPy's FFT is modelled as the
exact discrete Fourier transform over a field equipped with a primitive
root of unity, and Python-level partiality (the `ValueError` from
`range(..., 0)` and the `ValueError` that `np.fft.fft`/`np.fft.ifft` raise
on length-0 input) is modelled with `Option`.
-/

namespace BassTaber

/-- Python's `round` (round-half-to-even, i.e. banker's rounding) on a
rational.  `main.py` applies `int(round(...))`; the value of `round` is
integral, so the outer `int(...)` truncation is exact and the composite is
this function. -/
def roundHalfEven (q : ℚ) : ℤ :=
  if Int.fract q < 1/2 then ⌊q⌋
  else if 1/2 < Int.fract q then ⌊q⌋ + 1
  else if ⌊q⌋ % 2 = 0 then ⌊q⌋ else ⌊q⌋ + 1


/-- `string_notes = [40, 45, 50, 55]` — open-string MIDI notes of a
standard-tuned 4-string bass (E1, A1, D2, G2), `main.py` line 109. -/
def string_notes : List ℤ := [40, 45, 50, 55]

/-- `fret_candidate = int(round(midi_note - open_note))` (line 128). -/
def fretCandidate (m : ℚ) (o : ℤ) : ℤ := roundHalfEven (m - o)

/-- The open note of string index `s` (0 = E1 … 3 = G2). -/
def openNote (s : ℕ) : ℤ := string_notes.getD s 0

/-- The `for s, open_note in enumerate(reversed(string_notes))` loop with its
`break` (lines 127-132): the first entry (scanning open notes from highest to
lowest) whose fret candidate lies in `[0, 24]` yields
`(string = len(string_notes) - 1 - s, fret = fret_candidate)`. -/
def scanStrings (m : ℚ) : List (ℕ × ℤ) → Option (ℕ × ℤ)
  | [] => none
  | (s, o) :: rest =>
    if 0 ≤ fretCandidate m o ∧ fretCandidate m o ≤ 24 then
      some (string_notes.length - 1 - s, fretCandidate m o)
    else scanStrings m rest

/-- Map one MIDI note to a `(string, fret)` pair, or `none` when no string
can play it (lines 124-132). -/
def mapNote (m : ℚ) : Option (ℕ × ℤ) :=
  scanStrings m string_notes.reverse.enum

/-- Per-time-step fret assignment: a `None` pitch stays silent (`continue`,
line 121-122), otherwise the string scan decides. -/
def assignPitch (p : Option ℚ) : Option (ℕ × ℤ) := p.bind mapNote


/-! ## Tablature renderer (main.py lines 112-156) -/

/-- `spacing = 3` (line 113). -/
def spacing : ℕ := 3

/-- The decimal digit character for `d < 10`. -/
def digitChar (d : ℕ) : Char :=
  match d with
  | 0 => '0' | 1 => '1' | 2 => '2' | 3 => '3' | 4 => '4'
  | 5 => '5' | 6 => '6' | 7 => '7' | 8 => '8' | 9 => '9'
  | _ => '*'

/-- Decimal digits of a natural number, most significant first (Python
`str` on a non-negative integer).  Structural recursion on a fuel bound so
that the definition evaluates by kernel reduction. -/
def natToStrAux : ℕ → ℕ → List Char
  | 0, _ => []
  | fuel + 1, n =>
    if n < 10 then [digitChar n]
    else natToStrAux fuel (n / 10) ++ [digitChar (n % 10)]

def natToStr (n : ℕ) : List Char := natToStrAux (n + 1) n

/-- Python `str` on an integer. -/
def intToStr (z : ℤ) : List Char :=
  if z < 0 then '-' :: natToStr z.natAbs else natToStr z.toNat

/-- Python `str.ljust(w, c)` on a character list. -/
def ljustL (s : List Char) (w : ℕ) (c : Char) : List Char :=
  s ++ List.replicate (w - s.length) c

/-- One iteration of the tab-building loop body
(`for i, midi_note in enumerate(pitches)`, lines 116-138), applied to the
step's fret assignment: first `spacing` fill dashes are appended to every
string buffer; then, if the step has an assignment `(string, fret)`, the
slice `[i*spacing, i*spacing + spacing)` of that string's buffer is replaced
by `str(fret).ljust(spacing, '-')` via
`tab_chars[string][:pos] + fret_str + tab_chars[string][pos + spacing:]`. -/
def buildTabStep (tab : Fin 4 → List Char) (i : ℕ) (a : Option (ℕ × ℤ)) :
    Fin 4 → List Char :=
  let tab1 : Fin 4 → List Char := fun s => tab s ++ List.replicate spacing '-'
  match a with
  | none => tab1
  | some (st, fret) =>
    let fretStr := ljustL (intToStr fret) spacing '-'
    let pos := i * spacing
    fun s =>
      if s.val = st then (tab1 s).take pos ++ fretStr ++ (tab1 s).drop (pos + spacing)
      else tab1 s

def buildTabAux : ℕ → (Fin 4 → List Char) → List (Option (ℕ × ℤ)) → (Fin 4 → List Char)
  | _, tab, [] => tab
  | i, tab, a :: rest => buildTabAux (i + 1) (buildTabStep tab i a) rest

/-- The four tab buffers (`tab_chars`) after the whole loop, indexed as in
the source: buffer 0 is the E1 string, …, buffer 3 the G2 string. -/
def buildTab (as : List (Option (ℕ × ℤ))) : Fin 4 → List Char :=
  buildTabAux 0 (fun _ => []) as

/-- The `spacing`-wide cell that step `i` contributes to string buffer `s`:
fill dashes, or the left-justified fret token on the assigned string. -/
def stepCell (a : Option (ℕ × ℤ)) (s : Fin 4) : List Char :=
  match a with
  | none => List.replicate spacing '-'
  | some (st, f) =>
    if s.val = st then ljustL (intToStr f) spacing '-' else List.replicate spacing '-'

/-- Python `range(start, stop, step)` as the list of produced indices;
`none` models the `ValueError` raised when `step == 0`. -/
def pyRange (start stop step : ℤ) : Option (List ℤ) :=
  if step = 0 then none
  else if 0 < step then
    some ((List.range ((stop - start + step - 1) / step).toNat).map
      fun i => start + step * i)
  else
    some ((List.range ((start - stop + (-step) - 1) / (-step)).toNat).map
      fun i => start + step * i)

/-- Python slicing `l[a:b]` for the non-negative indices that occur in the
segmentation loop. -/
def pySlice (l : List Char) (a b : ℤ) : List Char :=
  (l.take b.toNat).drop a.toNat

/-- `segment_lines = ['G|', 'D|', 'A|', 'E|']` (line 147): the label put in
front of buffer `s`. -/
def segmentLabels : Fin 4 → List Char
  | 0 => ['G', '|']
  | 1 => ['D', '|']
  | 2 => ['A', '|']
  | 3 => ['E', '|']

/-- Lines 140-153: split the buffers into `max_width`-wide windows starting
at `range(0, total_length, max_width)`; each window contributes the four
labelled lines followed by one blank line.  `none` models the uncaught
`ValueError` when `max_width == 0`. -/
def renderOutput (tab : Fin 4 → List Char) (max_width : ℤ) :
    Option (List (List Char)) :=
  (pyRange 0 (tab 0).length max_width).map fun starts =>
    (starts.map fun st =>
      ((List.finRange 4).map fun s =>
        segmentLabels s ++ pySlice (tab s) st (st + max_width)) ++ [[]]).flatten

/-- The whole pitch-sequence-to-text pipeline of `main()` from the `pitches`
list onward: map every pitch to a fret assignment, build the buffers, and
segment them into output lines. -/
def tabOutput (pitches : List (Option ℚ)) (max_width : ℤ) :
    Option (List (List Char)) :=
  renderOutput (buildTab (pitches.map assignPitch)) max_width

/-! ## Pitch sequence normalizer (main.py lines 98-105)

The raw frequency taken from `piptrack` is an IEEE double; the discrete
decisions of the normalizer only look at its value class, so it is modelled
as either NaN, an infinity, or an exact finite value. -/

/-- A raw frequency estimate as it reaches the guard on line 100. -/
inductive PFloat where
  | nan : PFloat
  | inf : PFloat
  | neginf : PFloat
  | val : ℚ → PFloat
deriving DecidableEq

/-- `np.isnan` on the modelled float. -/
def isnanF : PFloat → Bool
  | .nan => true
  | _ => false

/-- `frequency == 0` on the modelled float (NaN and infinities compare
unequal to every number). -/
def eqZeroF : PFloat → Bool
  | .val q => q == 0
  | _ => false

/-- The value class of `librosa.hz_to_midi(frequency) = 69 + 12*np.log2(frequency/440)`.
A finite positive frequency `q` yields the finite midi value
`69 + 12*log2(q/440)`, represented here by its argument `q` (faithful, since
the conversion is injective on positive frequencies); `np.log2` of a negative
finite value is NaN, of `0` is `-inf`, of `+inf` is `+inf`, of NaN is NaN. -/
inductive MidiFloat where
  | nan : MidiFloat
  | inf : MidiFloat
  | neginf : MidiFloat
  | midiOfHz : ℚ → MidiFloat
deriving DecidableEq

def hz_to_midi : PFloat → MidiFloat
  | .nan => .nan
  | .inf => .inf
  | .neginf => .nan
  | .val q => if 0 < q then .midiOfHz q else if q = 0 then .neginf else .nan

/-- One step of the pitch loop (lines 100-105): append `None` when
`frequency == 0 or np.isnan(frequency)`, otherwise append the converted
midi note.  Every branch is total: no exception escapes the step. -/
def normalizeStep (freq : PFloat) : Option MidiFloat :=
  if eqZeroF freq || isnanF freq then none
  else some (hz_to_midi freq)

/-- The whole pitch loop over a sequence of raw estimates. -/
def normalizePitches (freqs : List PFloat) : List (Option MidiFloat) :=
  freqs.map normalizeStep

/-! ## Low-pass pre-filter (main.py lines 67-73)

`np.fft.fft` computes `X_k = Σ_j x_j exp(-2πi jk/n)`.  The transform is
embedded exactly over an arbitrary field `K` equipped with a distinguished
element `ω` standing for the primitive `n`-th root of unity `exp(-2πi/n)`;
`re` stands for taking the real part (`filtered_signal.real`), which on the
embedded real input samples is the identity. -/

/-- `np.fft.fftfreq(n)[k]`: the frequency of bin `k` in cycles per sample;
bins at and above `(n+1)/2` wrap to negative frequencies. -/
def fftfreq (n k : ℕ) : ℚ :=
  if k < (n + 1) / 2 then (k : ℚ) / n else ((k : ℚ) - n) / n

/-- The mask `np.abs(frequencies * sr) > cutoff` at bin `k` (line 70). -/
def cutoffMask (n : ℕ) (sr cutoff : ℚ) (k : ℕ) : Bool :=
  decide (cutoff < |fftfreq n k * sr|)

/-- `np.fft.fft`: bin `k` of the discrete Fourier transform of `x`.
NumPy's `_raw_fft` raises `ValueError("Invalid number of FFT data points
(0) specified.")` when the input length is 0; `none` models that error. -/
def dft {K : Type} [Field K] (ω : K) (x : List K) : Option (List K) :=
  if x.length = 0 then none
  else some ((List.range x.length).map fun k =>
    ∑ j ∈ Finset.range x.length, ω ^ (j * k) * x.getD j 0)

/-- `np.fft.ifft`: the inverse transform, with the `1/n` normalization;
it raises the same `ValueError` as `np.fft.fft` on length-0 input. -/
def idft {K : Type} [Field K] (ω : K) (y : List K) : Option (List K) :=
  if y.length = 0 then none
  else some ((List.range y.length).map fun j =>
    (y.length : K)⁻¹ * ∑ k ∈ Finset.range y.length, ω⁻¹ ^ (j * k) * y.getD k 0)

/-- `low_pass_filter(signal, sr, cutoff=200)` (lines 67-73): transform,
zero every bin whose frequency magnitude exceeds the cutoff, inverse
transform, and take the real part of the result.  `none` propagates the
`ValueError` that `np.fft.fft` raises on an empty signal. -/
def low_pass_filter {K : Type} [Field K] (re : K → K) (ω : K)
    (signal : List K) (sr cutoff : ℚ) : Option (List K) :=
  let n := signal.length
  (dft ω signal).bind fun fftv =>
    let masked := (List.range n).map fun k =>
      if cutoffMask n sr cutoff k then 0 else fftv.getD k 0
    (idft ω masked).map fun filtered => filtered.map re

/-! ## Re-parser for the round-trip property

The spec's round-trip reading of the rendered tab: split every string line
into `spacing`-wide cells; a cell beginning with a digit carries the fret
number written in its leading digits, a cell beginning with a fill
character is empty. -/

def charVal (c : Char) : ℕ := c.toNat - 48

def strToNat (s : List Char) : ℕ := s.foldl (fun a c => 10 * a + charVal c) 0

/-- Parse one `spacing`-wide cell of one string line. -/
def parseCell (cell : List Char) : Option ℕ :=
  match cell with
  | [] => none
  | c :: _ => if c.isDigit then some (strToNat (cell.takeWhile Char.isDigit)) else none

/-- The cell of string buffer `s` at time step `i`. -/
def tabCell (tab : Fin 4 → List Char) (s : Fin 4) (i : ℕ) : List Char :=
  ((tab s).drop (i * spacing)).take spacing

/-- Recover the fret assignment of step `i`: the unique string whose cell
carries a fret number, if any. -/
def parseStep (tab : Fin 4 → List Char) (i : ℕ) : Option (ℕ × ℤ) :=
  (List.finRange 4).findSome? fun s =>
    (parseCell (tabCell tab s i)).map fun f => (s.val, (f : ℤ))

/-- Re-parse whole tab buffers, cell column by cell column. -/
def parseTab (tab : Fin 4 → List Char) : List (Option (ℕ × ℤ)) :=
  (List.range ((tab 0).length / spacing)).map fun i => parseStep tab i

/-! ## Properties of the rounding convention and the string scan -/

theorem le_roundHalfEven (q : ℚ) : q - 1/2 ≤ (roundHalfEven q : ℤ) := by
  unfold roundHalfEven
  have hfr : Int.fract q = q - ⌊q⌋ := rfl
  have h0 : (0:ℚ) ≤ Int.fract q := Int.fract_nonneg q
  have h1 : Int.fract q < 1 := Int.fract_lt_one q
  split_ifs with hlt hgt hev <;> push_cast <;> linarith [hfr]

theorem roundHalfEven_le (q : ℚ) : (roundHalfEven q : ℤ) ≤ q + 1/2 := by
  unfold roundHalfEven
  have hfr : Int.fract q = q - ⌊q⌋ := rfl
  have h0 : (0:ℚ) ≤ Int.fract q := Int.fract_nonneg q
  have h1 : Int.fract q < 1 := Int.fract_lt_one q
  split_ifs with hlt hgt hev <;> push_cast <;> linarith [hfr]

/-- `roundHalfEven` at an integer is that integer. -/
theorem roundHalfEven_intCast (z : ℤ) : roundHalfEven (z : ℚ) = z := by
  unfold roundHalfEven
  rw [Int.fract_intCast, Int.floor_intCast]
  norm_num

/-- `roundHalfEven` on the lower half of a unit interval rounds down. -/
theorem roundHalfEven_eq_floor {q : ℚ} {z : ℤ} (h1 : (z : ℚ) ≤ q)
    (h2 : q < (z : ℚ) + 1/2) : roundHalfEven q = z := by
  have hz : ⌊q⌋ = z := Int.floor_eq_iff.mpr ⟨h1, by linarith⟩
  have hf : Int.fract q < 1/2 := by
    have : Int.fract q = q - ⌊q⌋ := rfl
    rw [this, hz]; linarith
  unfold roundHalfEven
  rw [if_pos hf, hz]

/-- `roundHalfEven` on the upper half of a unit interval rounds up. -/
theorem roundHalfEven_eq_ceil {q : ℚ} {z : ℤ} (h1 : (z : ℚ) + 1/2 < q)
    (h2 : q < (z : ℚ) + 1) : roundHalfEven q = z + 1 := by
  have hz : ⌊q⌋ = z := Int.floor_eq_iff.mpr ⟨by linarith, by linarith⟩
  have hfr : Int.fract q = q - ⌊q⌋ := rfl
  have hf : ¬ Int.fract q < 1/2 := by rw [hfr, hz]; linarith
  have hg : 1/2 < Int.fract q := by rw [hfr, hz]; linarith
  unfold roundHalfEven
  rw [if_neg hf, if_pos hg, hz]

/-- Exactly halfway: `roundHalfEven` picks the even neighbour. -/
theorem roundHalfEven_half (z : ℤ) :
    roundHalfEven ((z : ℚ) + 1/2) = if z % 2 = 0 then z else z + 1 := by
  have hz : ⌊(z : ℚ) + 1/2⌋ = z := by
    rw [Int.floor_eq_iff]
    refine ⟨by linarith, by linarith⟩
  have hfr : Int.fract ((z : ℚ) + 1/2) = 1/2 := by
    have : Int.fract ((z : ℚ) + 1/2) = ((z : ℚ) + 1/2) - ⌊(z : ℚ) + 1/2⌋ := rfl
    rw [this, hz]; ring
  unfold roundHalfEven
  rw [hfr, hz]
  norm_num


theorem scan_table : string_notes.reverse.enum = [(0, 55), (1, 50), (2, 45), (3, 40)] := rfl

theorem mapNote_eq (m : ℚ) :
    mapNote m =
      if 0 ≤ fretCandidate m 55 ∧ fretCandidate m 55 ≤ 24 then some (3, fretCandidate m 55)
      else if 0 ≤ fretCandidate m 50 ∧ fretCandidate m 50 ≤ 24 then some (2, fretCandidate m 50)
      else if 0 ≤ fretCandidate m 45 ∧ fretCandidate m 45 ≤ 24 then some (1, fretCandidate m 45)
      else if 0 ≤ fretCandidate m 40 ∧ fretCandidate m 40 ≤ 24 then some (0, fretCandidate m 40)
      else none := by
  rw [mapNote, scan_table]
  simp only [scanStrings, string_notes]
  rfl

/-- `fretCandidate` at an integer-valued pitch: `m - o` is an integer. -/
theorem fretCandidate_int (m o : ℤ) : fretCandidate (m : ℚ) o = m - o := by
  unfold fretCandidate
  rw [show ((m : ℚ) - o) = ((m - o : ℤ) : ℚ) by push_cast; ring, roundHalfEven_intCast]

theorem mapNote_55 : mapNote 55 = some (3, 0) := by
  rw [show (55 : ℚ) = ((55 : ℤ) : ℚ) by norm_num, mapNote_eq]
  simp only [fretCandidate_int]
  norm_num

theorem mapNote_45 : mapNote 45 = some (1, 0) := by
  rw [show (45 : ℚ) = ((45 : ℤ) : ℚ) by norm_num, mapNote_eq]
  simp only [fretCandidate_int]
  norm_num

theorem mapNote_39 : mapNote 39 = none := by
  rw [show (39 : ℚ) = ((39 : ℤ) : ℚ) by norm_num, mapNote_eq]
  simp only [fretCandidate_int]
  norm_num

/-! ## Decimal-string machinery -/

theorem charVal_digitChar {d : ℕ} (h : d < 10) : charVal (digitChar d) = d := by
  interval_cases d <;> rfl

theorem isDigit_digitChar {d : ℕ} (h : d < 10) : (digitChar d).isDigit = true := by
  interval_cases d <;> rfl

theorem natToStrAux_eleven (fuel n : ℕ) (h : n < fuel) :
    natToStrAux fuel n =
      if n < 10 then [digitChar n]
      else natToStrAux (fuel - 1) (n / 10) ++ [digitChar (n % 10)] := by
  cases fuel with
  | zero => omega
  | succ f => rfl

theorem natToStrAux_congr : ∀ n fuel₁ fuel₂, n < fuel₁ → n < fuel₂ →
    natToStrAux fuel₁ n = natToStrAux fuel₂ n := by
  intro n
  induction n using Nat.strong_induction_on with
  | _ n ih =>
    intro fuel₁ fuel₂ h1 h2
    rw [natToStrAux_eleven fuel₁ n h1, natToStrAux_eleven fuel₂ n h2]
    by_cases h10 : n < 10
    · simp [h10]
    · rw [if_neg h10, if_neg h10]
      have hd : n / 10 < n := Nat.div_lt_self (by omega) (by omega)
      rw [ih (n / 10) hd (fuel₁ - 1) (fuel₂ - 1) (by omega) (by omega)]

theorem natToStrAux_ne_nil (fuel n : ℕ) (h : n < fuel) : natToStrAux fuel n ≠ [] := by
  rw [natToStrAux_eleven fuel n h]
  by_cases h10 : n < 10 <;> simp [h10]

theorem natToStrAux_digits : ∀ fuel n, n < fuel →
    ∀ c ∈ natToStrAux fuel n, c.isDigit = true := by
  intro fuel
  induction fuel with
  | zero => omega
  | succ f ih =>
    intro n h c hc
    rw [natToStrAux_eleven (f + 1) n h] at hc
    by_cases h10 : n < 10
    · rw [if_pos h10] at hc
      simp at hc
      rw [hc]; exact isDigit_digitChar h10
    · rw [if_neg h10] at hc
      rcases List.mem_append.mp hc with h1 | h1
      · have hd : n / 10 < f := by
          have h2 : n / 10 < n := Nat.div_lt_self (by omega) (by norm_num)
          omega
        exact ih (n / 10) hd c (by simpa using h1)
      · simp at h1
        rw [h1]; exact isDigit_digitChar (Nat.mod_lt n (by omega))

theorem strToNat_natToStrAux : ∀ fuel n, n < fuel →
    strToNat (natToStrAux fuel n) = n := by
  intro fuel
  induction fuel with
  | zero => omega
  | succ f ih =>
    intro n h
    rw [natToStrAux_eleven (f + 1) n h]
    by_cases h10 : n < 10
    · rw [if_pos h10]
      show 10 * 0 + charVal (digitChar n) = n
      rw [charVal_digitChar h10]; omega
    · rw [if_neg h10]
      show List.foldl _ 0 _ = n
      rw [List.foldl_append]
      have hd : n / 10 < f := by
        have h2 : n / 10 < n := Nat.div_lt_self (by omega) (by norm_num)
        omega
      have := ih (n / 10) hd
      show 10 * strToNat (natToStrAux (f + 1 - 1) (n / 10)) + charVal (digitChar (n % 10)) = n
      simp only [Nat.add_sub_cancel]
      rw [this, charVal_digitChar (Nat.mod_lt n (by omega))]
      omega

theorem strToNat_natToStr (n : ℕ) : strToNat (natToStr n) = n :=
  strToNat_natToStrAux (n + 1) n (by omega)

theorem natToStr_ne_nil (n : ℕ) : natToStr n ≠ [] :=
  natToStrAux_ne_nil (n + 1) n (by omega)

theorem natToStr_digits (n : ℕ) : ∀ c ∈ natToStr n, c.isDigit = true :=
  natToStrAux_digits (n + 1) n (by omega)

theorem natToStr_length_le_two {n : ℕ} (h : n < 100) : (natToStr n).length ≤ 2 := by
  unfold natToStr
  rw [natToStrAux_eleven (n + 1) n (by omega)]
  by_cases h10 : n < 10
  · simp [h10]
  · rw [if_neg h10]
    have hq : n / 10 < 10 := by omega
    have hfuel : 0 < n + 1 - 1 := by omega
    rw [natToStrAux_congr (n / 10) (n + 1 - 1) (n / 10 + 1) (by omega) (by omega)]
    rw [natToStrAux_eleven (n / 10 + 1) (n / 10) (by omega), if_pos hq]
    simp

/-! ## Cell-level parsing lemmas -/

theorem takeWhile_append_of_all {p : Char → Bool} :
    ∀ (xs ys : List Char), (∀ x ∈ xs, p x = true) →
      (xs ++ ys).takeWhile p = xs ++ ys.takeWhile p := by
  intro xs ys h
  induction xs with
  | nil => simp
  | cons x xs ih =>
    have hx : p x = true := h x (by simp)
    simp only [List.cons_append, List.takeWhile_cons, hx]
    simp only [if_true, List.cons.injEq, true_and]
    rw [ih fun a ha => h a (by simp [ha])]

theorem takeWhile_digit_replicate (k : ℕ) :
    (List.replicate k '-').takeWhile Char.isDigit = [] := by
  cases k with
  | zero => rfl
  | succ m => rw [List.replicate_succ]; simp [List.takeWhile_cons]

theorem parseCell_replicate : parseCell (List.replicate spacing '-') = none := by
  rfl

theorem parseCell_cons (c : Char) (t : List Char) :
    parseCell (c :: t) =
      if c.isDigit then some (strToNat ((c :: t).takeWhile Char.isDigit)) else none := rfl

theorem parseCell_fret (f pad : ℕ) :
    parseCell (natToStr f ++ List.replicate pad '-') = some f := by
  rcases h : natToStr f with _ | ⟨c, cs⟩
  · exact absurd h (natToStr_ne_nil f)
  · have hc : c.isDigit = true := natToStr_digits f c (by rw [h]; simp)
    have hall : ∀ x ∈ natToStr f, Char.isDigit x = true := natToStr_digits f
    show parseCell (c :: (cs ++ List.replicate pad '-')) = some f
    rw [parseCell_cons]
    simp only [hc, if_true]
    rw [show (c :: (cs ++ List.replicate pad '-')) = (c :: cs) ++ List.replicate pad '-' from
        (List.cons_append c cs _).symm,
      ← h, takeWhile_append_of_all _ _ hall, takeWhile_digit_replicate,
      List.append_nil, strToNat_natToStr]

/-! ## Structure of the tab-building loop -/

theorem stepCell_length (a : Option (ℕ × ℤ)) (s : Fin 4)
    (h : ∀ st f, a = some (st, f) → 0 ≤ f ∧ f < 100) :
    (stepCell a s).length = spacing := by
  match a with
  | none => simp [stepCell]
  | some (st, f) =>
    obtain ⟨h0, h100⟩ := h st f rfl
    simp only [stepCell]
    by_cases hs : s.val = st
    · rw [if_pos hs]
      have : intToStr f = natToStr f.toNat := by
        unfold intToStr; rw [if_neg (not_lt.mpr h0)]
      rw [this]
      have hlen : (natToStr f.toNat).length ≤ 2 := natToStr_length_le_two (by omega)
      simp only [ljustL, List.length_append, List.length_replicate, spacing] at *
      omega
    · rw [if_neg hs]; simp

/-- The loop body appends exactly one `spacing`-wide cell to every buffer
when the buffers have the length invariant `spacing * i`. -/
theorem buildTabStep_eq (tab : Fin 4 → List Char) (i : ℕ) (a : Option (ℕ × ℤ))
    (hlen : ∀ s, (tab s).length = spacing * i) (s : Fin 4) :
    buildTabStep tab i a s = tab s ++ stepCell a s := by
  match a with
  | none => rfl
  | some (st, f) =>
    simp only [buildTabStep, stepCell]
    by_cases hs : s.val = st
    · rw [if_pos hs, if_pos hs]
      have h1 : (tab s ++ List.replicate spacing '-').take (i * spacing) = tab s :=
        List.take_left' (by rw [hlen s, Nat.mul_comm])
      have h2 : (tab s ++ List.replicate spacing '-').drop (i * spacing + spacing) = [] := by
        apply List.drop_eq_nil_of_le
        rw [List.length_append, List.length_replicate, hlen s, Nat.mul_comm]
      rw [h1, h2, List.append_nil]
    · rw [if_neg hs, if_neg hs]

theorem buildTabAux_eq :
    ∀ (as : List (Option (ℕ × ℤ))) (i : ℕ) (tab : Fin 4 → List Char),
      (∀ s, (tab s).length = spacing * i) →
      (∀ p ∈ as, ∀ st f, p = some (st, f) → 0 ≤ f ∧ f < 100) →
      ∀ s, buildTabAux i tab as s = tab s ++ (as.map fun a => stepCell a s).flatten := by
  intro as
  induction as with
  | nil => intro i tab _ _ s; simp [buildTabAux]
  | cons a rest ih =>
    intro i tab hlen hgood s
    have hstep : ∀ t, buildTabStep tab i a t = tab t ++ stepCell a t :=
      buildTabStep_eq tab i a hlen
    have hlen' : ∀ t, (buildTabStep tab i a t).length = spacing * (i + 1) := by
      intro t
      rw [hstep t, List.length_append, hlen t,
        stepCell_length a t fun st f hf => hgood a (by simp) st f hf]
      ring
    have := ih (i + 1) (buildTabStep tab i a) hlen'
      (fun p hp st f hf => hgood p (by simp [hp]) st f hf) s
    show buildTabAux (i + 1) (buildTabStep tab i a) rest s = _
    rw [this, hstep s]
    simp [List.append_assoc]

theorem buildTab_eq (as : List (Option (ℕ × ℤ)))
    (hgood : ∀ p ∈ as, ∀ st f, p = some (st, f) → 0 ≤ f ∧ f < 100) (s : Fin 4) :
    buildTab as s = (as.map fun a => stepCell a s).flatten := by
  have := buildTabAux_eq as 0 (fun _ => []) (by simp) hgood s
  simpa [buildTab] using this

theorem flatten_length_const (ls : List (List Char))
    (h : ∀ l ∈ ls, l.length = spacing) : ls.flatten.length = spacing * ls.length := by
  induction ls with
  | nil => simp
  | cons l rest ih =>
    simp only [List.flatten_cons, List.length_append, List.length_cons]
    rw [h l (by simp), ih fun x hx => h x (by simp [hx])]
    ring

theorem flatten_extract (ls : List (List Char)) (h : ∀ l ∈ ls, l.length = spacing) :
    ∀ i, i < ls.length → (ls.flatten.drop (i * spacing)).take spacing = ls.getD i [] := by
  induction ls with
  | nil => intro i hi; simp at hi
  | cons l rest ih =>
    intro i hi
    cases i with
    | zero =>
      simp only [Nat.zero_mul, List.drop_zero, List.flatten_cons, List.getD]
      exact List.take_left' (h l (by simp))
    | succ j =>
      have hl : l.length = spacing := h l (by simp)
      have hdrop : (l ++ rest.flatten).drop ((j + 1) * spacing) =
          rest.flatten.drop (j * spacing) := by
        rw [show (j + 1) * spacing = l.length + j * spacing by rw [hl]; ring]
        exact List.drop_append (j * spacing)
      simp only [List.flatten_cons, hdrop]
      have := ih (fun x hx => h x (by simp [hx])) j (by simpa using hi)
      simpa [List.getD] using this

theorem tabCell_buildTab (as : List (Option (ℕ × ℤ)))
    (hgood : ∀ p ∈ as, ∀ st f, p = some (st, f) → 0 ≤ f ∧ f < 100)
    (s : Fin 4) (i : ℕ) (hi : i < as.length) :
    tabCell (buildTab as) s i = stepCell (as.getD i none) s := by
  unfold tabCell
  rw [buildTab_eq as hgood s]
  have hconst : ∀ l ∈ as.map fun a => stepCell a s, l.length = spacing := by
    intro l hl
    rcases List.mem_map.mp hl with ⟨a, ha, rfl⟩
    exact stepCell_length a s fun st f hf => hgood a ha st f hf
  have := flatten_extract (as.map fun a => stepCell a s) hconst i (by simpa using hi)
  rw [this]
  rw [List.getD_eq_getElem _ _ (by simpa using hi), List.getElem_map,
    List.getD_eq_getElem _ _ hi]

theorem stepCell_of_other {a : Option (ℕ × ℤ)} {s : Fin 4}
    (h : ∀ st f, a = some (st, f) → st ≠ s.val) :
    stepCell a s = List.replicate spacing '-' := by
  match a with
  | none => rfl
  | some (st, f) =>
    simp only [stepCell]
    rw [if_neg fun hs => h st f rfl hs.symm]

theorem parseCell_stepCell_other {a : Option (ℕ × ℤ)} {s : Fin 4}
    (h : ∀ st f, a = some (st, f) → st ≠ s.val) :
    parseCell (stepCell a s) = none := by
  rw [stepCell_of_other h, parseCell_replicate]

theorem parseCell_stepCell_self {st : ℕ} {f : ℤ} {s : Fin 4}
    (hs : s.val = st) (h0 : 0 ≤ f) :
    parseCell (stepCell (some (st, f)) s) = some f.toNat := by
  simp only [stepCell, if_pos hs]
  have hi : intToStr f = natToStr f.toNat := by
    unfold intToStr; rw [if_neg (not_lt.mpr h0)]
  rw [hi, ljustL, parseCell_fret]

/-- Re-parsing one step of a built tab recovers that step's assignment. -/
theorem parseStep_buildTab (as : List (Option (ℕ × ℤ)))
    (hgood : ∀ p ∈ as, ∀ st f, p = some (st, f) → st < 4 ∧ 0 ≤ f ∧ f < 100)
    (i : ℕ) (hi : i < as.length) :
    parseStep (buildTab as) i = as.getD i none := by
  have hgood' : ∀ p ∈ as, ∀ st f, p = some (st, f) → 0 ≤ f ∧ f < 100 :=
    fun p hp st f hf => ⟨(hgood p hp st f hf).2.1, (hgood p hp st f hf).2.2⟩
  have hcell : ∀ s : Fin 4, tabCell (buildTab as) s i = stepCell (as.getD i none) s :=
    fun s => tabCell_buildTab as hgood' s i hi
  have hmem : as.getD i none ∈ as := by
    rw [List.getD_eq_getElem _ _ hi]; exact List.getElem_mem hi
  unfold parseStep
  rcases ha : as.getD i none with _ | ⟨st, f⟩
  · have hnone : ∀ s : Fin 4, parseCell (tabCell (buildTab as) s i) = none := by
      intro s
      rw [hcell s, ha]
      exact parseCell_stepCell_other fun st f hf => by simp at hf
    rw [show List.finRange 4 = [0, 1, 2, 3] by decide]
    simp [List.findSome?, hnone]
  · obtain ⟨hst4, hf0, hf100⟩ := hgood _ (ha ▸ hmem) st f rfl
    have hself : ∀ s : Fin 4, s.val = st →
        parseCell (tabCell (buildTab as) s i) = some f.toNat := by
      intro s hs
      rw [hcell s, ha]
      exact parseCell_stepCell_self hs hf0
    have hother : ∀ s : Fin 4, s.val ≠ st →
        parseCell (tabCell (buildTab as) s i) = none := by
      intro s hs
      rw [hcell s, ha]
      refine parseCell_stepCell_other fun st' f' hf' => ?_
      simp only [Option.some.injEq, Prod.mk.injEq] at hf'
      omega
    rw [show List.finRange 4 = [0, 1, 2, 3] by decide]
    have htn : (f.toNat : ℤ) = f := Int.toNat_of_nonneg hf0
    interval_cases st
    · have e0 := hself 0 (by decide)
      simp [List.findSome?, e0, htn]
    · have e0 := hother 0 (by decide)
      have e1 := hself 1 (by decide)
      simp [List.findSome?, e0, e1, htn]
    · have e0 := hother 0 (by decide)
      have e1 := hother 1 (by decide)
      have e2 := hself 2 (by decide)
      simp [List.findSome?, e0, e1, e2, htn]
    · have e0 := hother 0 (by decide)
      have e1 := hother 1 (by decide)
      have e2 := hother 2 (by decide)
      have e3 := hself 3 (by decide)
      simp [List.findSome?, e0, e1, e2, e3, htn]
      rfl

theorem buildTab_length (as : List (Option (ℕ × ℤ)))
    (hgood : ∀ p ∈ as, ∀ st f, p = some (st, f) → 0 ≤ f ∧ f < 100) (s : Fin 4) :
    (buildTab as s).length = spacing * as.length := by
  rw [buildTab_eq as hgood s]
  have := flatten_length_const (as.map fun a => stepCell a s) ?_
  · simpa using this
  · intro l hl
    rcases List.mem_map.mp hl with ⟨a, ha, rfl⟩
    exact stepCell_length a s fun st f hf => hgood a ha st f hf

/-- C5: rendering a fret-assignment sequence into the four tab buffers and
re-parsing the buffers in `spacing`-wide cells recovers the sequence
exactly, whenever every assignment names a real string (index < 4) and its
fret number has at most `spacing - 1 = 2` decimal digits (in particular for
all frets in `[0, 24]`). -/
theorem c5_render_parse_roundtrip (as : List (Option (ℕ × ℤ)))
    (hgood : ∀ p ∈ as, ∀ st f, p = some (st, f) → st < 4 ∧ 0 ≤ f ∧ f < 100) :
    parseTab (buildTab as) = as := by
  have hgood' : ∀ p ∈ as, ∀ st f, p = some (st, f) → 0 ≤ f ∧ f < 100 :=
    fun p hp st f hf => ⟨(hgood p hp st f hf).2.1, (hgood p hp st f hf).2.2⟩
  unfold parseTab
  rw [buildTab_length as hgood' 0,
    Nat.mul_div_cancel_left as.length (show 0 < spacing by decide)]
  apply List.ext_getElem
  · simp
  · intro i h1 h2
    have hi : i < as.length := by simpa using h1
    simp only [List.getElem_map, List.getElem_range]
    rw [parseStep_buildTab as hgood i hi, List.getD_eq_getElem _ _ hi]

/-- Witness for C5 at the concrete assignment sequence of the spec's
end-to-end example. -/
theorem c5_render_parse_roundtrip_witness :
    parseTab (buildTab [some (3, 0), none, some (1, 0)]) =
      [some (3, 0), none, some (1, 0)] :=
  c5_render_parse_roundtrip [some (3, 0), none, some (1, 0)] (by
    intro p hp st f hf
    rw [hf] at hp
    simp at hp
    rcases hp with ⟨h1, h2⟩ | ⟨h1, h2⟩ <;> omega)

/-- C10: one iteration of the rendering loop appends exactly `spacing`
characters to all four buffers; it changes nothing before position
`i * spacing`; buffers other than the assigned string receive pure fill;
the assigned string's buffer receives the fret token padded to the
`spacing`-wide slot — so after step `i` every buffer has length
`spacing * (i + 1)` and fret tokens never overlap.  The fret bound is the
mapper's output invariant (claim C8). -/
theorem c10_step_frame (tab : Fin 4 → List Char) (i : ℕ) (a : Option (ℕ × ℤ))
    (hlen : ∀ s, (tab s).length = spacing * i)
    (hfret : ∀ st f, a = some (st, f) → 0 ≤ f ∧ f ≤ 24) :
    (∀ s, (buildTabStep tab i a s).length = spacing * (i + 1)) ∧
    (∀ s, (buildTabStep tab i a s).take (spacing * i) = tab s) ∧
    (∀ s, (∀ st f, a = some (st, f) → st ≠ s.val) →
      buildTabStep tab i a s = tab s ++ List.replicate spacing '-') ∧
    (∀ st f, a = some (st, f) → ∀ s : Fin 4, s.val = st →
      buildTabStep tab i a s = tab s ++ ljustL (intToStr f) spacing '-') := by
  have hfret' : ∀ st f, a = some (st, f) → 0 ≤ f ∧ f < 100 :=
    fun st f hf => ⟨(hfret st f hf).1, by have := (hfret st f hf).2; omega⟩
  have hstep : ∀ s, buildTabStep tab i a s = tab s ++ stepCell a s :=
    buildTabStep_eq tab i a hlen
  refine ⟨?_, ?_, ?_, ?_⟩
  · intro s
    rw [hstep s, List.length_append, hlen s, stepCell_length a s hfret']
    ring
  · intro s
    rw [hstep s]
    exact List.take_left' (hlen s)
  · intro s hs
    rw [hstep s, stepCell_of_other fun st f hf => hs st f hf]
  · intro st f hf s hs
    rw [hstep s, hf]
    simp only [stepCell, if_pos hs]

/-- Witness for C10: the first loop iteration on empty buffers with the
assignment `(string 3, fret 0)`. -/
theorem c10_step_frame_witness :
    (∀ s, (buildTabStep (fun _ => []) 0 (some (3, 0)) s).length = spacing * (0 + 1)) ∧
    (∀ s, (buildTabStep (fun _ => []) 0 (some (3, 0)) s).take (spacing * 0) =
      (fun _ => ([] : List Char)) s) ∧
    (∀ s, (∀ st f, (some ((3 : ℕ), (0 : ℤ))) = some (st, f) → st ≠ s.val) →
      buildTabStep (fun _ => []) 0 (some (3, 0)) s =
        (fun _ => ([] : List Char)) s ++ List.replicate spacing '-') ∧
    (∀ st f, (some ((3 : ℕ), (0 : ℤ))) = some (st, f) → ∀ s : Fin 4, s.val = st →
      buildTabStep (fun _ => []) 0 (some (3, 0)) s =
        (fun _ => ([] : List Char)) s ++ ljustL (intToStr f) spacing '-') :=
  c10_step_frame (fun _ => []) 0 (some (3, 0)) (by simp [spacing]) (by
    intro st f hf
    simp only [Option.some.injEq, Prod.mk.injEq] at hf
    omega)

/-! ## Fretboard-mapper claims -/

theorem fretCandidate_lb (m : ℚ) (o : ℤ) :
    m - o - 1/2 ≤ (fretCandidate m o : ℚ) := le_roundHalfEven (m - o)

theorem fretCandidate_ub (m : ℚ) (o : ℤ) :
    (fretCandidate m o : ℚ) ≤ m - o + 1/2 := roundHalfEven_le (m - o)

theorem mapNote_bounds (m : ℚ) (s : ℕ) (f : ℤ) (h : mapNote m = some (s, f)) :
    s ≤ 3 ∧ 0 ≤ f ∧ f ≤ 24 := by
  rw [mapNote_eq] at h
  split_ifs at h with c3 c2 c1 c0
  · simp only [Option.some.injEq, Prod.mk.injEq] at h; omega
  · simp only [Option.some.injEq, Prod.mk.injEq] at h; omega
  · simp only [Option.some.injEq, Prod.mk.injEq] at h; omega
  · simp only [Option.some.injEq, Prod.mk.injEq] at h; omega

/-- C8: every non-silent assignment the mapper produces from any input
pitch sequence names a string index in `[0, 3]` and a fret in `[0, 24]`. -/
theorem c8_assignment_invariant (pitches : List (Option ℚ)) (a : Option (ℕ × ℤ))
    (ha : a ∈ pitches.map assignPitch) (s : ℕ) (f : ℤ) (hsf : a = some (s, f)) :
    s ≤ 3 ∧ 0 ≤ f ∧ f ≤ 24 := by
  rcases List.mem_map.mp ha with ⟨p, _, rfl⟩
  rcases p with _ | m
  · simp [assignPitch] at hsf
  · exact mapNote_bounds m s f hsf

/-- Witness for C8 at the single-step sequence `[55.0]`. -/
theorem c8_assignment_invariant_witness : (3 : ℕ) ≤ 3 ∧ (0 : ℤ) ≤ 0 ∧ (0 : ℤ) ≤ 24 :=
  c8_assignment_invariant [some 55] (some (3, 0))
    (by simp [assignPitch, mapNote_55]) 3 0 rfl

/-- C2: every MIDI pitch in `[40, 79]` is mapped to a non-silent
assignment, on the first string — scanning open notes from highest (G2=55)
to lowest (E1=40) — whose rounded offset lies in `[0, 24]`, with that
offset as the fret. -/
theorem c2_mapper_covers_range (m : ℚ) (h40 : 40 ≤ m) (h79 : m ≤ 79) :
    ∃ s f, mapNote m = some (s, f) ∧ s ≤ 3 ∧
      f = fretCandidate m (openNote s) ∧ 0 ≤ f ∧ f ≤ 24 ∧
      ∀ s', s < s' → s' ≤ 3 →
        ¬(0 ≤ fretCandidate m (openNote s') ∧ fretCandidate m (openNote s') ≤ 24) := by
  rw [mapNote_eq]
  by_cases c3 : 0 ≤ fretCandidate m 55 ∧ fretCandidate m 55 ≤ 24
  · refine ⟨3, fretCandidate m 55, by rw [if_pos c3], by omega,
      by rw [show openNote 3 = 55 from rfl], c3.1, c3.2, ?_⟩
    intro s' h1 h2; omega
  · by_cases c2 : 0 ≤ fretCandidate m 50 ∧ fretCandidate m 50 ≤ 24
    · refine ⟨2, fretCandidate m 50, by rw [if_neg c3, if_pos c2], by omega,
        by rw [show openNote 2 = 50 from rfl], c2.1, c2.2, ?_⟩
      intro s' h1 h2
      have : s' = 3 := by omega
      subst this
      rw [show openNote 3 = 55 from rfl]
      exact c3
    · by_cases c1 : 0 ≤ fretCandidate m 45 ∧ fretCandidate m 45 ≤ 24
      · refine ⟨1, fretCandidate m 45, by rw [if_neg c3, if_neg c2, if_pos c1], by omega,
          by rw [show openNote 1 = 45 from rfl], c1.1, c1.2, ?_⟩
        intro s' h1 h2
        interval_cases s'
        · rw [show openNote 2 = 50 from rfl]; exact c2
        · rw [show openNote 3 = 55 from rfl]; exact c3
      · by_cases c0 : 0 ≤ fretCandidate m 40 ∧ fretCandidate m 40 ≤ 24
        · refine ⟨0, fretCandidate m 40,
            by rw [if_neg c3, if_neg c2, if_neg c1, if_pos c0], by omega,
            by rw [show openNote 0 = 40 from rfl], c0.1, c0.2, ?_⟩
          intro s' h1 h2
          interval_cases s'
          · rw [show openNote 1 = 45 from rfl]; exact c1
          · rw [show openNote 2 = 50 from rfl]; exact c2
          · rw [show openNote 3 = 55 from rfl]; exact c3
        · exfalso
          have l40 := fretCandidate_lb m 40
          have u40 := fretCandidate_ub m 40
          have l55 := fretCandidate_lb m 55
          have u55 := fretCandidate_ub m 55
          push_cast at l40 u40 l55 u55
          have h40 : (0 : ℤ) ≤ fretCandidate m 40 := by
            by_contra hneg
            push_neg at hneg
            have h' : fretCandidate m 40 ≤ -1 := by omega
            have h'' : ((fretCandidate m 40 : ℤ) : ℚ) ≤ -1 := by exact_mod_cast h'
            linarith
          have h40' : 24 < fretCandidate m 40 := by
            rcases not_and_or.mp c0 with h | h
            · exact absurd h40 h
            · omega
          have h40q : (25 : ℚ) ≤ ((fretCandidate m 40 : ℤ) : ℚ) := by
            exact_mod_cast show (25 : ℤ) ≤ fretCandidate m 40 by omega
          have hm2 : (129 : ℚ)/2 ≤ m := by linarith
          apply c3
          constructor
          · by_contra hneg
            push_neg at hneg
            have h' : fretCandidate m 55 ≤ -1 := by omega
            have h'' : ((fretCandidate m 55 : ℤ) : ℚ) ≤ -1 := by exact_mod_cast h'
            linarith
          · by_contra hneg
            push_neg at hneg
            have h' : (25 : ℤ) ≤ fretCandidate m 55 := by omega
            have h'' : (25 : ℚ) ≤ ((fretCandidate m 55 : ℤ) : ℚ) := by exact_mod_cast h'
            linarith

/-- Witness for C2 at the concrete pitch `m = 60` in the covered range. -/
theorem c2_mapper_covers_range_witness :
    ∃ s f, mapNote 60 = some (s, f) ∧ s ≤ 3 ∧
      f = fretCandidate 60 (openNote s) ∧ 0 ≤ f ∧ f ≤ 24 ∧
      ∀ s', s < s' → s' ≤ 3 →
        ¬(0 ≤ fretCandidate 60 (openNote s') ∧ fretCandidate 60 (openNote s') ≤ 24) :=
  c2_mapper_covers_range 60 (by norm_num) (by norm_num)

/-- C9: the fret computation `int(round(midi_note - open_note))` rounds
half-to-even — whenever `m - o` is exactly halfway between two integers the
fret candidate is the nearer even integer. -/
theorem c9_round_half_to_even (m : ℚ) (o z : ℤ) (h : m - o = (z : ℚ) + 1/2) :
    fretCandidate m o = (if z % 2 = 0 then z else z + 1) ∧
      fretCandidate m o % 2 = 0 := by
  have he : fretCandidate m o = roundHalfEven ((z : ℚ) + 1/2) := by
    show roundHalfEven (m - o) = _
    rw [h]
  rw [he, roundHalfEven_half]
  refine ⟨rfl, ?_⟩
  split_ifs with h2
  · exact h2
  · omega

/-- Witness for C9: `m - o = 0.5` yields fret `0`, `m - o = 1.5` yields
fret `2`. -/
theorem c9_round_half_to_even_witness :
    fretCandidate (111/2) 55 = 0 ∧ fretCandidate (113/2) 55 = 2 := by
  have h1 := c9_round_half_to_even (111/2) 55 0 (by norm_num)
  have h2 := c9_round_half_to_even (113/2) 55 1 (by norm_num)
  constructor
  · rw [h1.1]; norm_num
  · rw [h2.1]; norm_num

/-! ## End-to-end example and configuration handling -/

/-- C1 (what the code actually prints): for the pitch sequence
`[55.0, None, 45.0]` the fret-0 token of the open-G pitch 55 lands on the
line labelled `E|` and the fret-0 token of the open-A pitch 45 on the line
labelled `D|`, because `segment_lines[s]` pairs label `['G|','D|','A|','E|'][s]`
with buffer `tab_chars[s]` whose index `s` counts strings from E1 (0) up to
G2 (3).  The spec's example instead requires `G|0--------` and
`A|------0--`. -/
theorem c1_rendered_output :
    tabOutput [some 55, none, some 45] 200 =
      some ["G|---------".data, "D|------0--".data, "A|---------".data,
        "E|0--------".data, []] := by
  have h : ([some (55 : ℚ), none, some 45].map assignPitch) =
      [some (3, 0), none, some (1, 0)] := by
    simp [assignPitch, mapNote_55, mapNote_45]
  rw [tabOutput, h]
  decide

/-- C3 counterexample: a negative finite frequency (-1 Hz) is not mapped to
`none` — the guard on line 100 only catches exact zero and NaN, so the step
is fed to the midi conversion and contributes a NaN midi value; `+inf`
likewise passes the guard.  The claim requires every `freq_hz <= 0` or
non-finite estimate to become `none`. -/
theorem c3_negative_not_none :
    normalizeStep (PFloat.val (-1)) = some MidiFloat.nan ∧
    normalizeStep PFloat.inf = some MidiFloat.inf ∧
    normalizeStep (PFloat.val (-1)) ≠ none := by
  have h1 : normalizeStep (PFloat.val (-1)) = some MidiFloat.nan := by
    norm_num [normalizeStep, eqZeroF, isnanF, hz_to_midi]
  exact ⟨h1, rfl, by rw [h1]; simp⟩

/-- C3 amended: a step maps to `none` exactly when its raw frequency is
exactly zero or NaN (negative and infinite estimates are not guarded);
every other finite positive frequency is converted via
`midi = 69 + 12*log2(freq_hz/440)`; the loop handles each step locally and
never shortens the sequence. -/
theorem c3_guard_characterization (f : PFloat) :
    (normalizeStep f = none ↔ f = PFloat.val 0 ∨ f = PFloat.nan) ∧
    (∀ q : ℚ, 0 < q → normalizeStep (PFloat.val q) = some (MidiFloat.midiOfHz q)) ∧
    (∀ freqs : List PFloat, (normalizePitches freqs).length = freqs.length) := by
  refine ⟨?_, ?_, ?_⟩
  · cases f with
    | nan => simp [normalizeStep, eqZeroF, isnanF]
    | inf => simp [normalizeStep, eqZeroF, isnanF]
    | neginf => simp [normalizeStep, eqZeroF, isnanF]
    | val q =>
      by_cases hq : q = 0
      · subst hq; simp [normalizeStep, eqZeroF, isnanF]
      · simp [normalizeStep, eqZeroF, isnanF, hq]
  · intro q hq
    simp [normalizeStep, eqZeroF, isnanF, ne_of_gt hq, hz_to_midi, hq]
  · intro freqs
    simp [normalizePitches]

/-- Witness for C3's amended characterization at the positive frequency 2 Hz. -/
theorem c3_guard_characterization_witness :
    normalizeStep (PFloat.val 2) = some (MidiFloat.midiOfHz 2) :=
  (c3_guard_characterization (PFloat.val 2)).2.1 2 (by norm_num)

theorem pyRange_zero_step (L : ℤ) : pyRange 0 L 0 = none := by
  simp [pyRange]

theorem pyRange_neg_step (L w : ℤ) (hL : 0 ≤ L) (hw : w < 0) :
    pyRange 0 L w = some [] := by
  unfold pyRange
  rw [if_neg (by omega), if_neg (by omega)]
  have key : ((0 - L + (-w) - 1) / (-w)).toNat = 0 := by
    apply Int.toNat_of_nonpos
    rcases le_or_lt 0 (0 - L + (-w) - 1) with h | h
    · exact le_of_eq (Int.ediv_eq_zero_of_lt h (by omega))
    · calc (0 - L + (-w) - 1) / (-w) ≤ 0 / (-w) := Int.ediv_le_ediv (by omega) (le_of_lt h)
        _ = 0 := Int.zero_ediv _
  rw [key]
  simp

/-- C4 counterexample: with `max_width = -1` the program is not rejected —
the segmentation loop runs zero times and the run completes, writing an
empty tablature file for the example input. -/
theorem c4_negative_width_not_rejected :
    tabOutput [some 55, none, some 45] (-1) = some [] := by
  have h : ([some (55 : ℚ), none, some 45].map assignPitch) =
      [some (3, 0), none, some (1, 0)] := by
    simp [assignPitch, mapNote_55, mapNote_45]
  rw [tabOutput, h]
  decide

/-- C4 amended: `main` performs no `max_width` validation at all.
`max_width = 0` first builds the entire tab and only then dies with an
uncaught `ValueError` from `range(0, total_length, 0)` (modelled as `none`);
`max_width < 0` is accepted silently and yields zero segments, so an empty
output file is written. -/
theorem c4_nonpositive_width_behavior (pitches : List (Option ℚ)) (w : ℤ)
    (hw : w ≤ 0) :
    tabOutput pitches w = if w = 0 then none else some [] := by
  by_cases h0 : w = 0
  · subst h0
    rw [if_pos rfl]
    unfold tabOutput renderOutput
    rw [pyRange_zero_step]
    rfl
  · rw [if_neg h0]
    unfold tabOutput renderOutput
    rw [pyRange_neg_step _ _ (Int.natCast_nonneg _) (by omega)]
    simp

/-- Witness for C4's amended behaviour at `max_width = -1`. -/
theorem c4_nonpositive_width_behavior_witness :
    tabOutput [some 55] (-1) = if (-1 : ℤ) = 0 then none else some [] :=
  c4_nonpositive_width_behavior [some 55] (-1) (by norm_num)

/-! ## Low-pass filter claims -/

theorem fftfreq_abs_le (n k : ℕ) (hk : k < n) : |fftfreq n k| ≤ 1/2 := by
  have hn : 0 < n := by omega
  have hnq : (0 : ℚ) < n := by exact_mod_cast hn
  unfold fftfreq
  split_ifs with h
  · have h2 : 2 * k ≤ n := by omega
    have h2q : 2 * (k : ℚ) ≤ n := by exact_mod_cast h2
    rw [abs_of_nonneg (by positivity), div_le_iff₀ hnq]
    linarith
  · have h1 : (n + 1) / 2 ≤ k := le_of_not_lt h
    have h2 : n ≤ 2 * k := by omega
    have h2q : (n : ℚ) ≤ 2 * k := by exact_mod_cast h2
    have hkn : (k : ℚ) - n ≤ 0 := by
      have : (k : ℚ) ≤ n := by exact_mod_cast le_of_lt hk
      linarith
    rw [abs_div, abs_of_nonpos hkn, abs_of_pos hnq, div_le_iff₀ hnq]
    linarith

theorem cutoffMask_false (n : ℕ) (sr cutoff : ℚ) (hsr : 0 ≤ sr)
    (hcut : sr / 2 ≤ cutoff) (k : ℕ) (hk : k < n) :
    cutoffMask n sr cutoff k = false := by
  unfold cutoffMask
  rw [decide_eq_false_iff_not, not_lt, abs_mul, abs_of_nonneg hsr]
  have h1 := fftfreq_abs_le n k hk
  have h2 : |fftfreq n k| * sr ≤ (1/2) * sr := mul_le_mul_of_nonneg_right h1 hsr
  linarith

theorem rootGeomSum {K : Type} [Field K] {ω : K} {n : ℕ}
    (hω : IsPrimitiveRoot ω n) (hpos : 0 < n) (j i : ℕ) (hj : j < n) (hi : i < n) :
    ∑ k ∈ Finset.range n, (ω⁻¹ ^ j * ω ^ i) ^ k = if i = j then (n : K) else 0 := by
  have hω0 : ω ≠ 0 := (hω.isUnit hpos).ne_zero
  by_cases h : i = j
  · subst h
    have hone : ω⁻¹ ^ i * ω ^ i = 1 := by
      rw [← mul_pow, inv_mul_cancel₀ hω0, one_pow]
    rw [if_pos rfl, hone]
    simp
  · rw [if_neg h]
    have hz1 : ω⁻¹ ^ j * ω ^ i ≠ 1 := by
      intro hzeq
      apply h
      rw [inv_pow] at hzeq
      exact hω.pow_inj hi hj ((inv_mul_eq_one₀ (pow_ne_zero j hω0)).mp hzeq).symm
    have hzn : (ω⁻¹ ^ j * ω ^ i) ^ n = 1 := by
      calc (ω⁻¹ ^ j * ω ^ i) ^ n = (ω⁻¹ ^ j) ^ n * (ω ^ i) ^ n := mul_pow _ _ n
        _ = (ω⁻¹ ^ n) ^ j * (ω ^ n) ^ i := by
            rw [← pow_mul, ← pow_mul, ← pow_mul, ← pow_mul,
              Nat.mul_comm j n, Nat.mul_comm i n]
        _ = 1 := by rw [inv_pow, hω.pow_eq_one, inv_one, one_pow, one_pow, one_mul]
    have hgeom := geom_sum_mul (ω⁻¹ ^ j * ω ^ i) n
    rw [hzn, sub_self] at hgeom
    rcases mul_eq_zero.mp hgeom with h1 | h2
    · exact h1
    · exact absurd (sub_eq_zero.mp h2) hz1

/-- Exact inversion of the embedded transforms: on non-empty input,
`np.fft.ifft` undoes `np.fft.fft` (stated on the transform vector that
`dft` wraps in `some`). -/
theorem idft_dft {K : Type} [Field K] (ω : K) (x : List K)
    (hω : IsPrimitiveRoot ω x.length) (hn : (x.length : K) ≠ 0) :
    idft ω ((List.range x.length).map fun k =>
      ∑ j ∈ Finset.range x.length, ω ^ (j * k) * x.getD j 0) = some x := by
  have hpos : 0 < x.length := by
    by_contra h
    push_neg at h
    have h0 : x.length = 0 := by omega
    rw [h0] at hn
    simp at hn
  have hdl : ((List.range x.length).map fun k =>
      ∑ j ∈ Finset.range x.length, ω ^ (j * k) * x.getD j 0).length = x.length := by
    simp
  rw [idft, if_neg (by rw [hdl]; omega)]
  rw [Option.some.injEq]
  apply List.ext_getElem
  · simp [hdl]
  intro j hj hj2
  simp only [hdl, List.getElem_map, List.getElem_range]
  have hget : ∀ k ∈ Finset.range x.length,
      ω⁻¹ ^ (j * k) * (((List.range x.length).map fun k =>
        ∑ i ∈ Finset.range x.length, ω ^ (i * k) * x.getD i 0).getD k 0) =
      ∑ i ∈ Finset.range x.length, ω⁻¹ ^ (j * k) * (ω ^ (i * k) * x.getD i 0) := by
    intro k hk
    rw [List.getD_eq_getElem _ _ (by rw [hdl]; exact Finset.mem_range.mp hk)]
    simp only [List.getElem_map, List.getElem_range]
    rw [Finset.mul_sum]
  rw [Finset.sum_congr rfl hget, Finset.sum_comm]
  have hinner : ∀ i ∈ Finset.range x.length,
      ∑ k ∈ Finset.range x.length, ω⁻¹ ^ (j * k) * (ω ^ (i * k) * x.getD i 0) =
      (if i = j then (x.length : K) else 0) * x.getD i 0 := by
    intro i hi
    rw [← rootGeomSum hω hpos j i hj2 (Finset.mem_range.mp hi), Finset.sum_mul]
    apply Finset.sum_congr rfl
    intro k _
    rw [mul_pow, ← pow_mul, ← pow_mul]
    ring
  rw [Finset.sum_congr rfl hinner]
  simp only [ite_mul, zero_mul]
  rw [Finset.sum_ite_eq' (Finset.range x.length) j fun i => (x.length : K) * x.getD i 0,
    if_pos (Finset.mem_range.mpr hj2), List.getD_eq_getElem _ _ hj2,
    inv_mul_cancel_left₀ hn]

/-- C6: when the cutoff is at least the Nyquist frequency `sr / 2`, the mask
zeroes no bin and the filter returns the waveform unchanged (exactly, since
the embedded transforms are exact). -/
theorem c6_highcut_identity {K : Type} [Field K] (re : K → K) (ω : K)
    (signal : List K) (sr cutoff : ℚ)
    (hω : IsPrimitiveRoot ω signal.length) (hn : (signal.length : K) ≠ 0)
    (hre : ∀ x ∈ signal, re x = x) (hsr : 0 ≤ sr) (hcut : sr / 2 ≤ cutoff) :
    low_pass_filter re ω signal sr cutoff = some signal := by
  have hn0 : signal.length ≠ 0 := by
    intro h0
    rw [h0] at hn
    simp at hn
  set F : List K := (List.range signal.length).map fun k =>
    ∑ j ∈ Finset.range signal.length, ω ^ (j * k) * signal.getD j 0 with hF
  have hFlen : F.length = signal.length := by rw [hF]; simp
  have hdft : dft ω signal = some F := by rw [dft, if_neg hn0]
  have hmask : ((List.range signal.length).map fun k =>
      if cutoffMask signal.length sr cutoff k then 0 else F.getD k 0) = F := by
    apply List.ext_getElem
    · simp [hFlen]
    · intro i h1 h2
      have hi : i < signal.length := by simpa using h1
      simp only [List.getElem_map, List.getElem_range]
      rw [cutoffMask_false signal.length sr cutoff hsr hcut i hi]
      simp only [Bool.false_eq_true, if_false]
      rw [List.getD_eq_getElem _ _ (by rw [hFlen]; exact hi)]
  show (dft ω signal).bind (fun fftv =>
      (idft ω ((List.range signal.length).map fun k =>
        if cutoffMask signal.length sr cutoff k then 0 else fftv.getD k 0)).map
        fun filtered => filtered.map re) = some signal
  rw [hdft, Option.some_bind, hmask, hF, idft_dft ω signal hω hn, Option.map_some']
  have hid : signal.map re = signal :=
    calc signal.map re = signal.map id := List.map_congr_left hre
      _ = signal := List.map_id signal
  rw [hid]

/-- Witness for C6: the two-sample rational waveform `[3, 5]` at sample rate
4 with cutoff 2 (= Nyquist), using the primitive square root of unity `-1`. -/
theorem c6_highcut_identity_witness :
    low_pass_filter (fun x : ℚ => x) (-1 : ℚ) [3, 5] 4 2 = some [3, 5] :=
  c6_highcut_identity (fun x => x) (-1) [3, 5] 4 2
    (IsPrimitiveRoot.mk_of_lt (-1 : ℚ) (by norm_num) (by norm_num)
      (fun l hl1 hl2 => by
        have h2 : l < 2 := by simpa using hl2
        interval_cases l
        norm_num))
    (by norm_num)
    (fun x _ => rfl)
    (by norm_num) (by norm_num)

/-- C7 (what the code actually does): on a length-0 waveform the very first
statement of `low_pass_filter`, `np.fft.fft(signal)`, raises
`ValueError("Invalid number of FFT data points (0) specified.")`
(NumPy's `_raw_fft` rejects `n < 1`), so the filter crashes instead of
returning an empty waveform, and nothing propagates downstream.  The claim
(and the spec's "empty input returns empty output") does not hold on the
code. -/
theorem c7_empty_waveform_crashes {K : Type} [Field K] (re : K → K) (ω : K)
    (sr cutoff : ℚ) :
    low_pass_filter re ω ([] : List K) sr cutoff = none := rfl

end BassTaber
